import Mathlib

/-!
A verification development for the group-by list-aggregation engine of
polars (crates/polars-core group_by aggregations `agg_list.rs` and
crates/polars-expr `group_iter.rs`), as a shallow embedding in Lean 4.

Machine integers (i64 offsets, IdxSize indices) are modelled as Int/Nat;
buffers and bitmaps as lists; fallible construction as Option.
-/

namespace Polars

/-- Model of an arrow `PrimitiveArray<T>`: flat value buffer plus optional
validity bitmap (one bit per position, `false` = null). Raw buffer values at
null positions are retained, as in arrow. -/
structure PrimArray (α : Type) where
  values : List α
  validity : Option (List Bool)
deriving Repr, DecidableEq

/-- `null_count`: number of unset validity bits (0 when no bitmap). -/
def PrimArray.null_count (arr : PrimArray α) : Nat :=
  match arr.validity with
  | none => 0
  | some v => v.count false

/-- Well-formedness: a present validity bitmap has one bit per value. -/
def PrimArray.wfb (arr : PrimArray α) : Bool :=
  match arr.validity with
  | none => true
  | some v => v.length == arr.values.length

/-- Model of `ChunkedArray<T>`: one or more physical chunks. -/
structure ChunkedPrim (α : Type) where
  chunks : List (PrimArray α)
deriving Repr, DecidableEq

/-- `ChunkedArray::rechunk`: concatenate all chunks into a single chunk.
The combined validity is absent iff no chunk carries a bitmap; otherwise
chunks without a bitmap contribute all-set bits. -/
def ChunkedPrim.rechunk (ca : ChunkedPrim α) : PrimArray α :=
  { values := ca.chunks.flatMap PrimArray.values,
    validity :=
      if ca.chunks.all (fun c => c.validity.isNone) then none
      else
        some (ca.chunks.flatMap
          (fun c => c.validity.getD (List.replicate c.values.length true))) }

/-- Model of `GroupsType`: the two group-partition representations.
Index-list form stores explicit row indices per group; slice form stores
`(first, len)` contiguous ranges. -/
inductive GroupsType where
  | idx (groups : List (List Nat))
  | slice (groups : List (Nat × Nat))
deriving Repr, DecidableEq

/-- Declared per-group lengths of a partition: index-list length or slice
length. -/
def GroupsType.declaredLens : GroupsType → List Nat
  | .idx gs => gs.map List.length
  | .slice ss => ss.map Prod.snd

/-- Flattened row indices of an index-list partition, in group order. -/
def idxFlat (groups : List (List Nat)) : List Nat :=
  groups.flatMap (fun idx => idx)

/-- Flattened row indices of a slice partition, in group order: each group
`(first, len)` contributes `first, first+1, ..., first+len-1`. -/
def sliceFlat (groups : List (Nat × Nat)) : List Nat :=
  groups.flatMap (fun s => (List.range s.2).map (fun k => s.1 + k))

/-- All source row indices referenced by a partition, in gather order. -/
def GroupsType.gatherIndices : GroupsType → List Nat
  | .idx gs => idxFlat gs
  | .slice ss => sliceFlat ss

/-- The caller-guaranteed precondition: every referenced row index is in
bounds for a source of length `n`. -/
def GroupsType.inBounds (g : GroupsType) (n : Nat) : Prop :=
  ∀ i ∈ g.gatherIndices, i < n

instance (g : GroupsType) (n : Nat) : Decidable (g.inBounds n) := by
  unfold GroupsType.inBounds; infer_instance

/-- The offsets loop: starting from a running cumulative length, push the new
cumulative length after each group. -/
def offsetsFrom (lens : List Nat) (length_so_far : Int) : List Int :=
  match lens with
  | [] => []
  | l :: rest => (length_so_far + l) :: offsetsFrom rest (length_so_far + l)

/-- Offsets built from per-group lengths: `0` first, then running cumulative
lengths (`offsets.push(length_so_far)` after each group). -/
def buildOffsets (lens : List Nat) : List Int :=
  0 :: offsetsFrom lens 0

/-- The validity second pass: walking the gathered source positions in order,
clear the output bit at position `count` whenever the source bit at that
gathered position is unset. `acc` starts as an all-set bitmap
(`MutableBitmap::from_len_set`). -/
def clearUnset (old : List Bool) (idxs : List Nat) (count : Nat)
    (acc : List Bool) : List Bool :=
  match idxs with
  | [] => acc
  | i :: rest =>
      clearUnset old rest (count + 1)
        (if old.getD i true then acc else acc.set count false)

/-- Model of the list column returned by `agg_list`: `offsets` plus flattened
child `values` with optional element-level validity (the bitmap passed to
`PrimitiveArray::new`), the list-level validity passed to `ListArray::new`,
and the cached fast-explode flag (`set_fast_explode`). -/
structure ListColumn (α : Type) where
  offsets : List Int
  values : List α
  childValidity : Option (List Bool)
  listValidity : Option (List Bool)
  fastExplode : Bool
deriving Repr, DecidableEq

/-- The `GroupsType::Idx` arm of `agg_list` for a single primitive chunk:
per-group gather by indexed lookup into the flat buffer, offsets pushed per
group, fast-explode cleared on any empty group, and, when the source has at
least one null, the element-level validity second pass. -/
def aggListIdx [Inhabited α] (arr : PrimArray α) (groups : List (List Nat)) :
    ListColumn α :=
  let values := arr.values
  let list_values := groups.flatMap (fun idx => idx.map (fun i => values.getD i default))
  let offsets := buildOffsets (groups.map List.length)
  let can_fast_explode := groups.all (fun idx => idx.length != 0)
  let validity : Option (List Bool) :=
    if arr.null_count > 0 then
      let old_validity := arr.validity.getD []
      some (clearUnset old_validity (idxFlat groups) 0
        (List.replicate list_values.length true))
    else none
  { offsets := offsets, values := list_values, childValidity := validity,
    listValidity := none, fastExplode := can_fast_explode }

/-- The `GroupsType::Slice` arm of `agg_list` for a single primitive chunk:
per-group bulk contiguous copy (`extend_from_slice`) of the
`first..first+len` range, otherwise identical bookkeeping to the Idx arm. -/
def aggListSlice [Inhabited α] (arr : PrimArray α) (groups : List (Nat × Nat)) :
    ListColumn α :=
  let values := arr.values
  let list_values := groups.flatMap (fun s => (values.drop s.1).take s.2)
  let offsets := buildOffsets (groups.map Prod.snd)
  let can_fast_explode := groups.all (fun s => s.2 != 0)
  let validity : Option (List Bool) :=
    if arr.null_count > 0 then
      let old_validity := arr.validity.getD []
      some (clearUnset old_validity (sliceFlat groups) 0
        (List.replicate list_values.length true))
    else none
  { offsets := offsets, values := list_values, childValidity := validity,
    listValidity := none, fastExplode := can_fast_explode }

/-- `impl AggList for ChunkedArray<T: PolarsNumericType>`: rechunk the source
into a single chunk, then dispatch on the partition representation. -/
def ChunkedPrim.agg_list [Inhabited α] (self : ChunkedPrim α) (groups : GroupsType) :
    ListColumn α :=
  let ca := self.rechunk
  match groups with
  | .idx gs => aggListIdx ca gs
  | .slice ss => aggListSlice ca ss

/-- Helper for the spec-modelled `prepare_list_agg`: the slice groups are
direct contiguous sub-ranges starting at `acc` (each group begins exactly
where the previous one ends). -/
def contiguousFrom : List (Nat × Nat) → Nat → Bool
  | [], _ => true
  | (f, l) :: rest, acc => f == acc && contiguousFrom rest (acc + l)

/-- Modelled from the spec: `GroupsType::prepare_list_agg` (groups code not
under src/). The Group Partition is converted into one combined
specification: either one flat sequence of source indices whose structure
encodes per-group boundaries as an offsets sequence (general index-list form,
or slice form that is not representable as direct contiguous sub-ranges of
the whole source), or no index sequence at all when the partition is already
slice-form direct contiguous sub-ranges covering the source in order.
Fast-explode is derived from the same per-group length computation. -/
def prepare_list_agg (g : GroupsType) (totalLen : Nat) :
    Option (List Nat) × List Int × Bool :=
  match g with
  | .idx gs =>
      (some (idxFlat gs), buildOffsets (gs.map List.length),
        gs.all (fun idx => idx.length != 0))
  | .slice ss =>
      let offsets := buildOffsets (ss.map Prod.snd)
      let cfe := ss.all (fun s => s.2 != 0)
      if contiguousFrom ss 0 && (ss.map Prod.snd).sum == totalLen then
        (none, offsets, cfe)
      else (some (sliceFlat ss), offsets, cfe)

/-- Output of the shared gather-and-wrap strategy: offsets over a gathered
child column of arbitrary element type, list-level validity as passed to
`LargeListArray::new`, and the fast-explode flag. -/
structure GenListColumn (β : Type) where
  offsets : List Int
  values : List β
  listValidity : Option (List Bool)
  fastExplode : Bool
deriving Repr, DecidableEq

/-- `agg_list_by_gather_and_offsets`: derive the combined gather/offsets
specification from the partition, apply one bulk take when a gather is
required (otherwise reuse the column as-is), and wrap with the offsets. -/
def agg_list_by_gather_and_offsets [Inhabited β] (ca : List β) (groups : GroupsType) :
    GenListColumn β :=
  let r := prepare_list_agg groups ca.length
  let gathered :=
    match r.1 with
    | some gather => gather.map (fun i => ca.getD i default)
    | none => ca
  { offsets := r.2.1, values := gathered, listValidity := none,
    fastExplode := r.2.2 }

/-- Model of `NullChunked`: a typed-null column of a given length (the name
is irrelevant to the claims). Every logical element is absent. -/
structure NullChunked where
  len : Nat
deriving Repr, DecidableEq

/-- Output of the all-null fast path: offsets over an all-null child, each
child element modelled as `none`. -/
structure NullListColumn where
  offsets : List Int
  child : List (Option Unit)
deriving Repr, DecidableEq

/-- Modelled from the spec: `ListNullChunkedBuilder` (chunked_array builder
code not under src/). It records only per-group length contributions to the
offsets sequence; `finish` synthesizes the offsets and an all-null child of
the total length. No values buffer and no validity pass exist. -/
structure ListNullChunkedBuilder where
  lens : List Nat
deriving Repr, DecidableEq

/-- `ListNullChunkedBuilder::append_with_len`: record one group length. -/
def ListNullChunkedBuilder.append_with_len (b : ListNullChunkedBuilder) (l : Nat) :
    ListNullChunkedBuilder :=
  ⟨b.lens ++ [l]⟩

/-- `ListNullChunkedBuilder::finish`. -/
def ListNullChunkedBuilder.finish (b : ListNullChunkedBuilder) : NullListColumn :=
  { offsets := buildOffsets b.lens,
    child := List.replicate b.lens.sum none }

/-- `impl AggList for NullChunked`: append each group's length (index-list
length or slice length) to the builder and finish. -/
def NullChunked.agg_list (_self : NullChunked) (groups : GroupsType) : NullListColumn :=
  match groups with
  | .idx gs =>
      (gs.foldl (fun b idx => b.append_with_len idx.length)
        (⟨[]⟩ : ListNullChunkedBuilder)).finish
  | .slice ss =>
      (ss.foldl (fun b s => b.append_with_len s.2)
        (⟨[]⟩ : ListNullChunkedBuilder)).finish

/-- A minimal model of polars data types, enough to express the list-of-struct
re-tagging performed by the struct aggregation path. -/
inductive MDataType where
  | int : MDataType
  | text : MDataType
  | struct (fields : List (String × MDataType)) : MDataType
  | list (inner : MDataType) : MDataType
deriving Repr

/-- Model of `StructChunked`: a logical length and a list of fields, each a
name, an element data type, and a value buffer. -/
structure StructChunked (β : Type) where
  len : Nat
  fields : List (String × MDataType × List β)

/-- Well-formedness: every field buffer has the column's logical length. -/
def StructChunked.wfb (s : StructChunked β) : Bool :=
  s.fields.all (fun f => f.2.2.length == s.len)

/-- `StructChunked::dtype`: the struct type with the original field names and
element types. -/
def StructChunked.dtype (s : StructChunked β) : MDataType :=
  .struct (s.fields.map (fun f => (f.1, f.2.1)))

/-- Modelled from the spec: `Series::take_unchecked` on a struct column
(series/frame code not under src/): the single bulk take is applied uniformly
across all child columns simultaneously, so that corresponding positions
across every field remain aligned after the gather. -/
def StructChunked.take_unchecked [Inhabited β] (s : StructChunked β)
    (idxs : List Nat) : StructChunked β :=
  { len := idxs.length,
    fields := s.fields.map
      (fun f => (f.1, f.2.1, idxs.map (fun i => f.2.2.getD i default))) }

/-- Output of the struct aggregation path: offsets over the gathered struct
child, the re-tagged result data type (`set_dtype`), list-level validity, and
the fast-explode flag. -/
structure StructListColumn (β : Type) where
  offsets : List Int
  child : StructChunked β
  resultDtype : MDataType
  listValidity : Option (List Bool)
  fastExplode : Bool

/-- `impl AggList for StructChunked`: derive the combined gather/offsets
specification, gather all fields with one uniform take when required, wrap
with the offsets, and explicitly reassign the data type to list-of-struct
with the original field names and types. -/
def StructChunked.agg_list [Inhabited β] (self : StructChunked β)
    (groups : GroupsType) : StructListColumn β :=
  let r := prepare_list_agg groups self.len
  let gathered :=
    match r.1 with
    | some gather => self.take_unchecked gather
    | none => self
  { offsets := r.2.1, child := gathered,
    resultDtype := .list self.dtype,
    listValidity := none, fastExplode := r.2.2 }

/-- The uniform row map of the struct path: output position `p` reads source
row `rowMap p` in every field. -/
def structRowMap (g : GroupsType) (totalLen : Nat) : Nat → Nat :=
  match (prepare_list_agg g totalLen).1 with
  | some gather => fun p => gather.getD p 0
  | none => fun p => p

/-- Model of `LitIter` (group_iter.rs): the amortized iterator for the
`Literal` aggregation state. `series_container` is the single one-element
backing container allocated at construction; `item` is the amortized view
aliasing it. -/
structure LitIter (α : Type) where
  len : Nat
  offset : Nat
  series_container : α
  item : α
deriving Repr, DecidableEq

/-- `LitIter::new`: wrap the single broadcast value once; the item aliases
the container. -/
def LitIter.new (array : α) (len : Nat) : LitIter α :=
  { len := len, offset := 0, series_container := array, item := array }

/-- `Iterator::next for LitIter`: yield the aliased item unchanged until
`len` items have been produced. -/
def LitIter.next (s : LitIter α) : Option (LitIter α × Option α) :=
  if s.len = s.offset then none
  else some ({ s with offset := s.offset + 1 }, some s.item)

/-- Model of `FlatIter` (group_iter.rs): the amortized iterator for the
`AggregatedScalar` state. `chunks` is the remaining chunk stack in pop order;
`item` is the amortized one-element view, re-pointed in place. -/
structure FlatIter (α : Type) where
  current_array : List α
  chunks : List (List α)
  offset : Nat
  chunk_offset : Nat
  len : Nat
  item : List α
deriving Repr, DecidableEq

/-- `FlatIter::new`: reverse the chunks onto a stack and pop the first as the
current array (`unwrap` fails on a column with no chunks, modelled as
`none`); the container initially wraps the first chunk. -/
def FlatIter.new (chunks : List (List α)) (len : Nat) : Option (FlatIter α) :=
  match chunks with
  | [] => none
  | c :: rest =>
      some { current_array := c, chunks := rest, offset := 0,
             chunk_offset := 0, len := len, item := c }

/-- `Iterator::next for FlatIter`: yield a one-element slice of the current
chunk at `chunk_offset` (swapped into the amortized item), advancing to the
next chunk when the current one is exhausted; stop after `len` items or when
all chunks are exhausted. -/
def FlatIter.next (s : FlatIter α) : Option (FlatIter α × Option (List α)) :=
  if s.len = s.offset then none
  else if s.chunk_offset < s.current_array.length then
    let arr := (s.current_array.drop s.chunk_offset).take 1
    some ({ s with item := arr, offset := s.offset + 1,
                   chunk_offset := s.chunk_offset + 1 }, some arr)
  else
    match _h : s.chunks with
    | [] => none
    | arr :: rest =>
        FlatIter.next { s with current_array := arr, chunks := rest,
                                 chunk_offset := 0 }
termination_by s.chunks.length
decreasing_by simp [_h]

/-- Drive a pull-based iterator, collecting the yielded items; `fuel` bounds
the number of pulls. -/
def runIter (next : σ → Option (σ × β)) : Nat → σ → List β
  | 0, _ => []
  | fuel + 1, s =>
      match next s with
      | none => []
      | some (s2, b) => b :: runIter next fuel s2

/-- Total number of values remaining in a `FlatIter`'s chunks. -/
def FlatIter.remaining (s : FlatIter α) : Nat :=
  (s.current_array.length - s.chunk_offset) + (s.chunks.map List.length).sum

/-- An index-list partition and a slice partition select the same rows for
the same groups: group for group, the index list is exactly the enumeration
`first, first+1, ..., first+len-1` of the slice. -/
def equivPartitions (gs : List (List Nat)) (ss : List (Nat × Nat)) : Prop :=
  List.Forall₂ (fun idx t => idx = (List.range t.2).map (fun k => t.1 + k)) gs ss

theorem offsetsFrom_length (lens : List Nat) (s : Int) :
    (offsetsFrom lens s).length = lens.length := by
  induction lens generalizing s with
  | nil => rfl
  | cons l rest ih => simp [offsetsFrom, ih]

theorem offsetsFrom_getD (lens : List Nat) (s : Int) (i : Nat)
    (h : i < lens.length) :
    (offsetsFrom lens s).getD i 0 = s + ((lens.take (i + 1)).sum : Int) := by
  induction lens generalizing s i with
  | nil => simp at h
  | cons l rest ih =>
    cases i with
    | zero => simp [offsetsFrom]
    | succ j =>
      have hj : j < rest.length := by simpa using h
      have hrec := ih (s + (l : Int)) j hj
      simp only [offsetsFrom, List.getD_cons_succ, hrec, List.take_succ_cons,
        List.sum_cons]
      push_cast
      ring

theorem buildOffsets_length (lens : List Nat) :
    (buildOffsets lens).length = lens.length + 1 := by
  simp [buildOffsets, offsetsFrom_length]

theorem buildOffsets_getD (lens : List Nat) (i : Nat) (h : i ≤ lens.length) :
    (buildOffsets lens).getD i 0 = ((lens.take i).sum : Int) := by
  cases i with
  | zero => simp [buildOffsets]
  | succ j =>
    have hj : j < lens.length := by omega
    have hrec := offsetsFrom_getD lens 0 j hj
    simp only [buildOffsets, List.getD_cons_succ, hrec, zero_add]

theorem idxFlat_length (gs : List (List Nat)) :
    (idxFlat gs).length = (gs.map List.length).sum := by
  simp only [idxFlat, List.length_flatMap]
  rfl

theorem sliceFlat_length (ss : List (Nat × Nat)) :
    (sliceFlat ss).length = (ss.map Prod.snd).sum := by
  simp only [sliceFlat, List.length_flatMap]
  have hfun : (List.length ∘ fun s : Nat × Nat =>
      (List.range s.2).map (fun k => s.1 + k)) = Prod.snd := by
    funext s
    simp
  rw [hfun]

theorem aggListIdx_values [Inhabited α] (arr : PrimArray α)
    (gs : List (List Nat)) :
    (aggListIdx arr gs).values
      = (idxFlat gs).map (fun i => arr.values.getD i default) := by
  simp [aggListIdx, idxFlat, List.map_flatMap]

theorem slice_chunk_eq [Inhabited α] (values : List α) (f l : Nat)
    (hb : ∀ k, k < l → f + k < values.length) :
    (values.drop f).take l
      = (List.range l).map (fun k => values.getD (f + k) default) := by
  apply List.ext_getElem
  · simp only [List.length_take, List.length_drop, List.length_map,
      List.length_range]
    rcases Nat.eq_zero_or_pos l with h0 | h0
    · omega
    · have := hb (l - 1) (by omega)
      omega
  · intro k h1 h2
    have hk : k < l := by
      simp only [List.length_take, List.length_drop] at h1
      omega
    have hfk : f + k < values.length := hb k hk
    simp [List.getElem_take, List.getElem_drop, List.getElem?_eq_getElem hfk]

theorem sliceFlat_values [Inhabited α] (values : List α)
    (ss : List (Nat × Nat)) (hb : ∀ i ∈ sliceFlat ss, i < values.length) :
    ss.flatMap (fun t => (values.drop t.1).take t.2)
      = (sliceFlat ss).map (fun i => values.getD i default) := by
  induction ss with
  | nil => rfl
  | cons s rest ih =>
    have hhead : ∀ k, k < s.2 → s.1 + k < values.length := by
      intro k hk
      refine hb _ ?_
      simp only [sliceFlat, List.flatMap_cons]
      refine List.mem_append_left _ ?_
      simp only [List.mem_map, List.mem_range]
      exact ⟨k, hk, rfl⟩
    have htail : ∀ i ∈ sliceFlat rest, i < values.length := by
      intro i hi
      refine hb _ ?_
      simp only [sliceFlat, List.flatMap_cons]
      exact List.mem_append_right _ hi
    calc (s :: rest).flatMap (fun t => (values.drop t.1).take t.2)
        = ((values.drop s.1).take s.2)
            ++ rest.flatMap (fun t => (values.drop t.1).take t.2) :=
          List.flatMap_cons s rest _
      _ = ((List.range s.2).map (fun k => values.getD (s.1 + k) default))
            ++ (sliceFlat rest).map (fun i => values.getD i default) := by
          rw [slice_chunk_eq values s.1 s.2 hhead, ih htail]
      _ = (sliceFlat (s :: rest)).map (fun i => values.getD i default) := by
          simp [sliceFlat, List.flatMap_cons, List.map_map, Function.comp]

theorem aggListSlice_values [Inhabited α] (arr : PrimArray α)
    (ss : List (Nat × Nat))
    (hb : GroupsType.inBounds (.slice ss) arr.values.length) :
    (aggListSlice arr ss).values
      = (sliceFlat ss).map (fun i => arr.values.getD i default) := by
  exact sliceFlat_values arr.values ss hb

theorem agg_list_values_length [Inhabited α] (ca : ChunkedPrim α)
    (g : GroupsType) (hb : g.inBounds ca.rechunk.values.length) :
    (ca.agg_list g).values.length = g.declaredLens.sum := by
  cases g with
  | idx gs =>
    show (aggListIdx ca.rechunk gs).values.length = _
    rw [aggListIdx_values, List.length_map, idxFlat_length]
    rfl
  | slice ss =>
    show (aggListSlice ca.rechunk ss).values.length = _
    rw [aggListSlice_values ca.rechunk ss hb, List.length_map, sliceFlat_length]
    rfl

theorem take_sum_le (lens : List Nat) (i : Nat) :
    (lens.take i).sum ≤ (lens.take (i + 1)).sum := by
  rw [List.take_succ]
  simp

theorem take_succ_sum (lens : List Nat) (i : Nat) (h : i < lens.length) :
    (lens.take (i + 1)).sum = (lens.take i).sum + lens.getD i 0 := by
  rw [List.take_succ, List.sum_append, List.getElem?_eq_getElem h,
    List.getD_eq_getElem lens 0 h]
  simp

/-- C1: for every group partition (index-list or slice form) whose indices
are all in bounds for the source column, the list column returned by
`agg_list` has an offsets sequence of length groupCount+1, with first entry
0, nondecreasing entries, last entry equal to the length of the flattened
values child, and for every group i the difference of consecutive offsets
equals group i's declared length. -/
theorem C1_agg_list_offsets_spec (α : Type) [Inhabited α] (ca : ChunkedPrim α)
    (g : GroupsType) (hb : g.inBounds ca.rechunk.values.length) :
    (ca.agg_list g).offsets.length = g.declaredLens.length + 1 ∧
    (ca.agg_list g).offsets.getD 0 0 = 0 ∧
    (∀ i, i + 1 < (ca.agg_list g).offsets.length →
      (ca.agg_list g).offsets.getD i 0 ≤ (ca.agg_list g).offsets.getD (i + 1) 0) ∧
    (ca.agg_list g).offsets.getD ((ca.agg_list g).offsets.length - 1) 0
      = ((ca.agg_list g).values.length : Int) ∧
    (∀ i, i < g.declaredLens.length →
      (ca.agg_list g).offsets.getD (i + 1) 0 - (ca.agg_list g).offsets.getD i 0
        = (g.declaredLens.getD i 0 : Int)) := by
  have hoff : (ca.agg_list g).offsets = buildOffsets g.declaredLens := by
    cases g <;> rfl
  have hvlen : (ca.agg_list g).values.length = g.declaredLens.sum :=
    agg_list_values_length ca g hb
  rw [hoff, hvlen, buildOffsets_length]
  refine ⟨rfl, ?_, ?_, ?_, ?_⟩
  · rw [buildOffsets_getD g.declaredLens 0 (Nat.zero_le _)]
    simp
  · intro i hi
    have hi1 : i + 1 ≤ g.declaredLens.length := by omega
    rw [buildOffsets_getD g.declaredLens i (by omega),
      buildOffsets_getD g.declaredLens (i + 1) hi1]
    exact_mod_cast take_sum_le g.declaredLens i
  · have hlast : g.declaredLens.length + 1 - 1 = g.declaredLens.length := rfl
    rw [hlast, buildOffsets_getD g.declaredLens g.declaredLens.length le_rfl,
      List.take_length]
  · intro i hi
    rw [buildOffsets_getD g.declaredLens (i + 1) (by omega),
      buildOffsets_getD g.declaredLens i (by omega),
      take_succ_sum g.declaredLens i hi]
    push_cast
    ring

/-- Witness for C1 at a concrete column and partition. -/
theorem C1_agg_list_offsets_spec_witness :
    (GroupsType.inBounds (.idx [[0, 2], [1], []])
      (ChunkedPrim.rechunk ⟨[⟨[10, 20, 30], none⟩]⟩ : PrimArray Nat).values.length) ∧
    ((ChunkedPrim.agg_list ⟨[⟨[10, 20, 30], none⟩]⟩
      (.idx [[0, 2], [1], []])).offsets.getD 0 0 = 0) := by
  refine ⟨by decide, ?_⟩
  exact (C1_agg_list_offsets_spec Nat ⟨[⟨[10, 20, 30], none⟩]⟩
    (.idx [[0, 2], [1], []]) (by decide)).2.1

theorem all_map_general (l : List α) (f : α → β) (p : β → Bool) :
    (l.map f).all p = l.all (fun x => p (f x)) := by
  induction l with
  | nil => rfl
  | cons x xs ih => simp [ih]

theorem agg_list_fastExplode_eq [Inhabited α] (ca : ChunkedPrim α)
    (g : GroupsType) :
    (ca.agg_list g).fastExplode = g.declaredLens.all (fun l => l != 0) := by
  cases g with
  | idx gs =>
    show (aggListIdx ca.rechunk gs).fastExplode = _
    rw [show GroupsType.declaredLens (.idx gs) = gs.map List.length from rfl,
      all_map_general]
    rfl
  | slice ss =>
    show (aggListSlice ca.rechunk ss).fastExplode = _
    rw [show GroupsType.declaredLens (.slice ss) = ss.map Prod.snd from rfl,
      all_map_general]
    rfl

/-- C3: the fast-explode flag of the list column returned by `agg_list` is
true iff no group in the partition has zero declared length; in particular a
partition containing an empty group yields fast-explode = false. -/
theorem C3_fast_explode_spec (α : Type) [Inhabited α] (ca : ChunkedPrim α)
    (g : GroupsType) :
    ((ca.agg_list g).fastExplode = true ↔ ∀ l ∈ g.declaredLens, 0 < l) ∧
    (0 ∈ g.declaredLens → (ca.agg_list g).fastExplode = false) := by
  rw [agg_list_fastExplode_eq]
  constructor
  · rw [List.all_eq_true]
    constructor
    · intro h l hl
      have := h l hl
      simp only [bne_iff_ne, ne_eq] at this
      omega
    · intro h l hl
      have := h l hl
      simp only [bne_iff_ne, ne_eq]
      omega
  · intro h0
    rcases Bool.eq_false_or_eq_true (g.declaredLens.all (fun l => l != 0))
      with hf | ht
    · rw [List.all_eq_true] at hf
      have := hf 0 h0
      simp at this
    · exact ht

/-- Witness for C3: a partition with exactly one empty group among otherwise
non-empty groups yields fast-explode = false. -/
theorem C3_fast_explode_spec_witness :
    (0 ∈ (GroupsType.idx [[0], [], [1, 2]]).declaredLens) ∧
    ((ChunkedPrim.agg_list (⟨[⟨[10, 20, 30], none⟩]⟩ : ChunkedPrim Nat)
      (.idx [[0], [], [1, 2]])).fastExplode = false) := by
  refine ⟨by decide, ?_⟩
  exact (C3_fast_explode_spec Nat ⟨[⟨[10, 20, 30], none⟩]⟩
    (.idx [[0], [], [1, 2]])).2 (by decide)

theorem clearUnset_length (old : List Bool) (idxs : List Nat) (count : Nat)
    (acc : List Bool) :
    (clearUnset old idxs count acc).length = acc.length := by
  induction idxs generalizing count acc with
  | nil => rfl
  | cons i rest ih =>
    simp only [clearUnset]
    rw [ih]
    by_cases h : old.getD i true = true
    · rw [if_pos h]
    · rw [if_neg h, List.length_set]

theorem clearUnset_getD_lt (old : List Bool) (idxs : List Nat) (count : Nat)
    (acc : List Bool) (p : Nat) (hp : p < count) :
    (clearUnset old idxs count acc).getD p false = acc.getD p false := by
  induction idxs generalizing count acc with
  | nil => rfl
  | cons i rest ih =>
    simp only [clearUnset]
    rw [ih (count + 1) _ (by omega)]
    by_cases h : old.getD i true = true
    · rw [if_pos h]
    · rw [if_neg h, List.getD_eq_getElem?_getD, List.getD_eq_getElem?_getD,
        List.getElem?_set_ne (by omega : count ≠ p)]

theorem clearUnset_getD (old : List Bool) (idxs : List Nat) (count : Nat)
    (acc : List Bool) (hlen : acc.length = count + idxs.length)
    (hset : ∀ k, count ≤ k → k < acc.length → acc.getD k false = true)
    (j : Nat) (hj : j < idxs.length) :
    (clearUnset old idxs count acc).getD (count + j) false
      = old.getD (idxs.getD j 0) true := by
  induction idxs generalizing count acc j with
  | nil => simp at hj
  | cons i rest ih =>
    have hcount : count < acc.length := by
      simp only [List.length_cons] at hlen
      omega
    cases j with
    | zero =>
      simp only [clearUnset, Nat.add_zero, List.getD_cons_zero]
      rw [clearUnset_getD_lt old rest (count + 1) _ count (by omega)]
      by_cases h : old.getD i true = true
      · rw [if_pos h, hset count le_rfl hcount]
        exact h.symm
      · rw [if_neg h, List.getD_eq_getElem?_getD, List.getElem?_set_self hcount]
        simp only [Option.getD_some]
        exact ((Bool.not_eq_true _).mp h).symm
    | succ j2 =>
      have hstep : count + (j2 + 1) = (count + 1) + j2 := by omega
      simp only [clearUnset, List.getD_cons_succ]
      rw [hstep]
      have hj2 : j2 < rest.length := by
        simp only [List.length_cons] at hj
        omega
      apply ih (count + 1) _ ?_ ?_ j2 hj2
      · by_cases h : old.getD i true = true
        · rw [if_pos h]
          simp only [List.length_cons] at hlen
          omega
        · rw [if_neg h, List.length_set]
          simp only [List.length_cons] at hlen
          omega
      · intro k hk1 hk2
        by_cases h : old.getD i true = true
        · rw [if_pos h] at hk2 ⊢
          exact hset k (by omega) hk2
        · rw [if_neg h] at hk2 ⊢
          rw [List.length_set] at hk2
          rw [List.getD_eq_getElem?_getD,
            List.getElem?_set_ne (by omega : count ≠ k),
            ← List.getD_eq_getElem?_getD]
          exact hset k (by omega) hk2

theorem replicate_getD_true (n k : Nat) (hk : k < n) :
    (List.replicate n true).getD k false = true := by
  rw [List.getD_eq_getElem (List.replicate n true) false (by simpa using hk)]
  exact List.getElem_replicate true (by simpa using hk)

theorem gatherIndices_length (g : GroupsType) :
    g.gatherIndices.length = g.declaredLens.sum := by
  cases g with
  | idx gs => exact idxFlat_length gs
  | slice ss => exact sliceFlat_length ss

theorem agg_list_childValidity_eq [Inhabited α] (ca : ChunkedPrim α)
    (g : GroupsType) :
    (ca.agg_list g).childValidity
      = (if ca.rechunk.null_count > 0 then
          some (clearUnset (ca.rechunk.validity.getD []) g.gatherIndices 0
            (List.replicate (ca.agg_list g).values.length true))
        else none) := by
  cases g <;> rfl

/-- C4: if the rechunked source has zero nulls, the child of the returned
list column carries no validity buffer; if it has at least one null, the
child carries a validity buffer with one bit per output position whose bit at
position p equals the source validity bit at the p-th gathered source
position. -/
theorem C4_validity_spec (α : Type) [Inhabited α] (ca : ChunkedPrim α)
    (g : GroupsType) (hwf : ca.rechunk.wfb = true)
    (hb : g.inBounds ca.rechunk.values.length) :
    (ca.rechunk.null_count = 0 → (ca.agg_list g).childValidity = none) ∧
    (0 < ca.rechunk.null_count →
      ∃ v w, ca.rechunk.validity = some v ∧
        (ca.agg_list g).childValidity = some w ∧
        w.length = (ca.agg_list g).values.length ∧
        v.length = ca.rechunk.values.length ∧
        (∀ p, p < w.length →
          w.getD p false = v.getD (g.gatherIndices.getD p 0) true)) := by
  constructor
  · intro h0
    rw [agg_list_childValidity_eq, if_neg (by omega)]
  · intro hpos
    obtain ⟨v, hv⟩ : ∃ v, ca.rechunk.validity = some v := by
      cases hval : ca.rechunk.validity with
      | none =>
        simp only [PrimArray.null_count, hval] at hpos
        exact (Nat.lt_irrefl 0 hpos).elim
      | some v => exact ⟨v, rfl⟩
    have hlenv : (ca.agg_list g).values.length = g.gatherIndices.length := by
      rw [agg_list_values_length ca g hb, gatherIndices_length]
    refine ⟨v, clearUnset v g.gatherIndices 0
      (List.replicate (ca.agg_list g).values.length true), hv, ?_, ?_, ?_, ?_⟩
    · rw [agg_list_childValidity_eq, if_pos (by omega), hv]
      rfl
    · rw [clearUnset_length, List.length_replicate]
    · simp only [PrimArray.wfb, hv] at hwf
      simpa using hwf
    · intro p hp
      rw [clearUnset_length, List.length_replicate] at hp
      have hp2 : p < g.gatherIndices.length := by omega
      have := clearUnset_getD v g.gatherIndices 0
        (List.replicate (ca.agg_list g).values.length true)
        (by rw [List.length_replicate, hlenv, Nat.zero_add])
        (fun k hk1 hk2 => replicate_getD_true _ k
          (by simpa using hk2)) p hp2
      rw [Nat.zero_add] at this
      exact this

/-- Witness for C4 at a source with one null. -/
theorem C4_validity_spec_witness :
    (0 < (⟨[⟨[1, 2], some [true, false]⟩]⟩ : ChunkedPrim Nat).rechunk.null_count) ∧
    (∃ v w,
      (⟨[⟨[1, 2], some [true, false]⟩]⟩ : ChunkedPrim Nat).rechunk.validity = some v ∧
      (ChunkedPrim.agg_list ⟨[⟨[1, 2], some [true, false]⟩]⟩
        (.idx [[1, 0]])).childValidity = some w ∧
      w.length = (ChunkedPrim.agg_list ⟨[⟨[1, 2], some [true, false]⟩]⟩
        (.idx [[1, 0]])).values.length ∧
      v.length = (⟨[⟨[1, 2], some [true, false]⟩]⟩ : ChunkedPrim Nat).rechunk.values.length ∧
      (∀ p, p < w.length →
        w.getD p false
          = v.getD ((GroupsType.idx [[1, 0]]).gatherIndices.getD p 0) true)) :=
  ⟨by decide,
    (C4_validity_spec Nat ⟨[⟨[1, 2], some [true, false]⟩]⟩ (.idx [[1, 0]])
      (by decide) (by decide)).2 (by decide)⟩

/-- C5 counterexample: for the source [1, null 2] and the single group
[0, 1], the returned list column's only validity bitmap is the element-level
child bitmap with 2 bits for 1 group (not one bit per group), and there is no
list-level validity bitmap to mark a whole group's list null. -/
theorem C5_counterexample :
    ((ChunkedPrim.agg_list (⟨[⟨[1, 2], some [true, false]⟩]⟩ : ChunkedPrim Nat)
        (.idx [[0, 1]])).childValidity.map List.length = some 2) ∧
    ((GroupsType.idx [[0, 1]]).declaredLens.length = 1) ∧
    ((ChunkedPrim.agg_list (⟨[⟨[1, 2], some [true, false]⟩]⟩ : ChunkedPrim Nat)
        (.idx [[0, 1]])).listValidity = none) := by
  decide

/-- C5 amended: the list column returned by `agg_list` never carries a
list-level validity bitmap; any validity bitmap it carries is the
element-level child bitmap, with one bit per gathered element. -/
theorem C5_amended_spec (α : Type) [Inhabited α] (ca : ChunkedPrim α)
    (g : GroupsType) (hb : g.inBounds ca.rechunk.values.length) :
    (ca.agg_list g).listValidity = none ∧
    (∀ w, (ca.agg_list g).childValidity = some w →
      w.length = (ca.agg_list g).values.length) := by
  constructor
  · cases g <;> rfl
  · intro w hw
    rw [agg_list_childValidity_eq] at hw
    by_cases hnc : ca.rechunk.null_count > 0
    · rw [if_pos hnc] at hw
      have hw2 := Option.some.inj hw
      rw [← hw2, clearUnset_length, List.length_replicate]
    · rw [if_neg hnc] at hw
      exact Option.noConfusion hw

/-- Witness for the amended C5. -/
theorem C5_amended_spec_witness :
    (GroupsType.inBounds (.idx [[0, 1]])
      (⟨[⟨[1, 2], some [true, false]⟩]⟩ : ChunkedPrim Nat).rechunk.values.length) ∧
    (ChunkedPrim.agg_list (⟨[⟨[1, 2], some [true, false]⟩]⟩ : ChunkedPrim Nat)
      (.idx [[0, 1]])).listValidity = none :=
  ⟨by decide,
    (C5_amended_spec Nat ⟨[⟨[1, 2], some [true, false]⟩]⟩ (.idx [[0, 1]])
      (by decide)).1⟩

theorem foldl_append_with_len (f : γ → Nat) (l : List γ) (acc : List Nat) :
    (l.foldl (fun b x => b.append_with_len (f x))
      (⟨acc⟩ : ListNullChunkedBuilder)).lens = acc ++ l.map f := by
  induction l generalizing acc with
  | nil => simp
  | cons x xs ih =>
    rw [List.foldl_cons]
    show (List.foldl (fun b x => b.append_with_len (f x))
        (⟨acc ++ [f x]⟩ : ListNullChunkedBuilder) xs).lens = _
    rw [ih (acc ++ [f x])]
    simp

theorem null_agg_list_eq (c : NullChunked) (g : GroupsType) :
    c.agg_list g
      = { offsets := buildOffsets g.declaredLens,
          child := List.replicate g.declaredLens.sum none } := by
  cases g with
  | idx gs =>
    simp only [NullChunked.agg_list, ListNullChunkedBuilder.finish,
      foldl_append_with_len List.length gs [], List.nil_append]
    rfl
  | slice ss =>
    simp only [NullChunked.agg_list, ListNullChunkedBuilder.finish,
      foldl_append_with_len Prod.snd ss [], List.nil_append]
    rfl

/-- C6: the all-null fast path performs no value gather and no validity
pass: the output is determined solely by the per-group declared lengths,
every child element is null, and each group's offsets difference equals its
declared length. -/
theorem C6_null_fast_path_spec (c : NullChunked) (g g2 : GroupsType)
    (hsame : g.declaredLens = g2.declaredLens) :
    c.agg_list g = c.agg_list g2 ∧
    (∀ x ∈ (c.agg_list g).child, x = none) ∧
    (c.agg_list g).offsets.length = g.declaredLens.length + 1 ∧
    (∀ i, i < g.declaredLens.length →
      (c.agg_list g).offsets.getD (i + 1) 0 - (c.agg_list g).offsets.getD i 0
        = (g.declaredLens.getD i 0 : Int)) := by
  refine ⟨?_, ?_, ?_, ?_⟩
  · rw [null_agg_list_eq, null_agg_list_eq, hsame]
  · intro x hx
    rw [null_agg_list_eq] at hx
    exact List.eq_of_mem_replicate hx
  · rw [null_agg_list_eq]
    exact buildOffsets_length _
  · intro i hi
    rw [null_agg_list_eq]
    show (buildOffsets g.declaredLens).getD (i + 1) 0
        - (buildOffsets g.declaredLens).getD i 0 = _
    rw [buildOffsets_getD _ (i + 1) (by omega), buildOffsets_getD _ i (by omega),
      take_succ_sum _ i hi]
    push_cast
    ring

/-- Witness for C6: an index-list and a slice partition with the same
declared lengths produce identical all-null list columns. -/
theorem C6_null_fast_path_spec_witness :
    ((GroupsType.idx [[0, 1], []]).declaredLens
      = (GroupsType.slice [(5, 2), (9, 0)]).declaredLens) ∧
    NullChunked.agg_list ⟨3⟩ (.idx [[0, 1], []])
      = NullChunked.agg_list ⟨3⟩ (.slice [(5, 2), (9, 0)]) :=
  ⟨by decide,
    (C6_null_fast_path_spec ⟨3⟩ (.idx [[0, 1], []]) (.slice [(5, 2), (9, 0)])
      (by decide)).1⟩

theorem runIter_succ (next : σ → Option (σ × β)) (fuel : Nat) (s : σ) :
    runIter next (fuel + 1) s
      = match next s with
        | none => []
        | some (s2, b) => b :: runIter next fuel s2 := rfl

theorem runIter_litIter (a : α) (n offset fuel : Nat) (hle : offset ≤ n)
    (hfuel : n - offset ≤ fuel) :
    runIter LitIter.next fuel ⟨n, offset, a, a⟩
      = List.replicate (n - offset) (some a) := by
  induction fuel generalizing offset with
  | zero =>
    have h0 : n - offset = 0 := by omega
    rw [h0]
    rfl
  | succ fuel ih =>
    rw [runIter_succ]
    by_cases h : n = offset
    · have hn : LitIter.next (⟨n, offset, a, a⟩ : LitIter α) = none := by
        simp [LitIter.next, h]
      rw [hn]
      have h0 : n - offset = 0 := by omega
      rw [h0]
      rfl
    · have hn : LitIter.next (⟨n, offset, a, a⟩ : LitIter α)
          = some (⟨n, offset + 1, a, a⟩, some a) := by
        simp [LitIter.next, h]
      rw [hn]
      show some a :: runIter LitIter.next fuel ⟨n, offset + 1, a, a⟩ = _
      rw [ih (offset + 1) (by omega) (by omega)]
      have h1 : n - offset = (n - (offset + 1)) + 1 := by omega
      rw [h1]
      rfl

/-- C7: under the Literal aggregation state with N groups, the iterator
yields exactly N items, each non-none and equal to the single broadcast
value; the item aliases the single backing container allocated at
construction, and every advance returns that item and leaves both the item
and the container unchanged (the shallow rendering of "one allocation up
front, none afterwards"). -/
theorem C7_literal_iter_spec (α : Type) (a : α) (n fuel : Nat)
    (hfuel : n ≤ fuel) :
    runIter LitIter.next fuel (LitIter.new a n) = List.replicate n (some a) ∧
    (LitIter.new a n).item = (LitIter.new a n).series_container ∧
    (∀ s s2 : LitIter α, ∀ b, LitIter.next s = some (s2, b) →
      s2.item = s.item ∧ s2.series_container = s.series_container ∧
      b = some s.item) := by
  refine ⟨?_, rfl, ?_⟩
  · have h := runIter_litIter a n 0 fuel (Nat.zero_le n) (by omega)
    simpa [LitIter.new] using h
  · intro s s2 b hnext
    unfold LitIter.next at hnext
    by_cases h : s.len = s.offset
    · rw [if_pos h] at hnext
      exact Option.noConfusion hnext
    · rw [if_neg h] at hnext
      cases hnext
      exact ⟨rfl, rfl, rfl⟩

/-- Witness for C7 with three groups and surplus fuel. -/
theorem C7_literal_iter_spec_witness :
    3 ≤ 5 ∧
    runIter LitIter.next 5 (LitIter.new 42 3) = List.replicate 3 (some 42) :=
  ⟨by decide, (C7_literal_iter_spec Nat 42 3 5 (by decide)).1⟩

theorem flatIter_next_yield (s : FlatIter α) (hlen : ¬ s.len = s.offset)
    (hoff : s.chunk_offset < s.current_array.length) :
    FlatIter.next s
      = some ({ s with item := (s.current_array.drop s.chunk_offset).take 1,
                       offset := s.offset + 1,
                       chunk_offset := s.chunk_offset + 1 },
          some ((s.current_array.drop s.chunk_offset).take 1)) := by
  rw [FlatIter.next.eq_def, if_neg hlen, if_pos hoff]

theorem flatIter_next_pop (s : FlatIter α) (c : List α) (rest : List (List α))
    (hc : s.chunks = c :: rest)
    (hoff : ¬ s.chunk_offset < s.current_array.length) :
    FlatIter.next s
      = FlatIter.next
          { s with current_array := c, chunks := rest, chunk_offset := 0 } := by
  by_cases hlen : s.len = s.offset
  · have h1 : FlatIter.next s = none := by
      rw [FlatIter.next.eq_def, if_pos hlen]
    have h2 : FlatIter.next
        { s with current_array := c, chunks := rest, chunk_offset := 0 }
          = none := by
      rw [FlatIter.next.eq_def]
      split
      · rfl
      · rename_i h
        exact absurd hlen h
    rw [h1, h2]
  · rw [FlatIter.next.eq_def, if_neg hlen, if_neg hoff]
    split
    · rename_i heq
      rw [hc] at heq
      exact List.noConfusion heq
    · rename_i c2 rest2 heq
      rw [hc] at heq
      injection heq with h3 h4
      subst h3
      subst h4
      rfl

theorem flatIter_next_spec_aux (l : List (List α)) :
    ∀ s : FlatIter α, s.chunks = l →
    (FlatIter.next s = none ∧ (s.len = s.offset ∨ FlatIter.remaining s = 0)) ∨
    (∃ s2 b, FlatIter.next s = some (s2, b) ∧ s2.len = s.len ∧
      s2.offset = s.offset + 1 ∧
      FlatIter.remaining s2 + 1 = FlatIter.remaining s ∧
      ¬ s.len = s.offset) := by
  induction l with
  | nil =>
    intro s hc
    by_cases hlen : s.len = s.offset
    · left
      exact ⟨by rw [FlatIter.next.eq_def, if_pos hlen], Or.inl hlen⟩
    · by_cases hoff : s.chunk_offset < s.current_array.length
      · right
        refine ⟨_, _, flatIter_next_yield s hlen hoff, rfl, rfl, ?_, hlen⟩
        simp only [FlatIter.remaining]
        omega
      · left
        constructor
        · rw [FlatIter.next.eq_def, if_neg hlen, if_neg hoff]
          split
          · rfl
          · rename_i heq
            rw [hc] at heq
            exact List.noConfusion heq
        · right
          simp only [FlatIter.remaining, hc, List.map_nil, List.sum_nil]
          omega
  | cons c rest ih =>
    intro s hc
    by_cases hlen : s.len = s.offset
    · left
      exact ⟨by rw [FlatIter.next.eq_def, if_pos hlen], Or.inl hlen⟩
    · by_cases hoff : s.chunk_offset < s.current_array.length
      · right
        refine ⟨_, _, flatIter_next_yield s hlen hoff, rfl, rfl, ?_, hlen⟩
        simp only [FlatIter.remaining]
        omega
      · have hpop := flatIter_next_pop s c rest hc hoff
        have hrem : FlatIter.remaining
            { s with current_array := c, chunks := rest, chunk_offset := 0 }
              = FlatIter.remaining s := by
          simp only [FlatIter.remaining, hc, List.map_cons, List.sum_cons]
          omega
        rcases ih
            { s with current_array := c, chunks := rest, chunk_offset := 0 }
            rfl with ⟨hn, hz⟩ | ⟨s2, b, hn, h1, h2, h3, h4⟩
        · left
          refine ⟨by rw [hpop, hn], ?_⟩
          rcases hz with hz | hz
          · exact Or.inl hz
          · right
            rw [← hrem]
            exact hz
        · right
          refine ⟨s2, b, by rw [hpop, hn], h1, h2, ?_, h4⟩
          rw [h3, hrem]

theorem flatIter_next_spec (s : FlatIter α) :
    (FlatIter.next s = none ∧ (s.len = s.offset ∨ FlatIter.remaining s = 0)) ∨
    (∃ s2 b, FlatIter.next s = some (s2, b) ∧ s2.len = s.len ∧
      s2.offset = s.offset + 1 ∧
      FlatIter.remaining s2 + 1 = FlatIter.remaining s ∧
      ¬ s.len = s.offset) :=
  flatIter_next_spec_aux s.chunks s rfl

theorem runIter_flatIter_length (fuel : Nat) (s : FlatIter α)
    (hle : s.offset ≤ s.len) :
    (runIter FlatIter.next fuel s).length
      = min fuel (min (s.len - s.offset) (FlatIter.remaining s)) := by
  induction fuel generalizing s with
  | zero => simp [runIter]
  | succ fuel ih =>
    rcases flatIter_next_spec s with ⟨hn, hz⟩ | ⟨s2, b, hn, h1, h2, h3, h4⟩
    · rw [runIter_succ, hn]
      show (0 : Nat) = _
      omega
    · rw [runIter_succ, hn]
      show (b :: runIter FlatIter.next fuel s2).length = _
      rw [List.length_cons, ih s2 (by omega)]
      rw [h1, h2]
      omega

/-- C10: under the AggregatedScalar state, the iterator yields exactly
min(N, total number of values across the column's chunks) items: it stops by
yielding nothing further once the values are exhausted, and never yields more
than N items even when the column holds more values. -/
theorem C10_flatIter_count_spec (α : Type) (chunks : List (List α)) (n : Nat)
    (st : FlatIter α) (hnew : FlatIter.new chunks n = some st)
    (fuel : Nat) (hfuel : n ≤ fuel) :
    (runIter FlatIter.next fuel st).length
      = min n ((chunks.map List.length).sum) := by
  cases chunks with
  | nil => exact Option.noConfusion hnew
  | cons c rest =>
    have hst : st = { current_array := c, chunks := rest, offset := 0,
                      chunk_offset := 0, len := n, item := c } :=
      (Option.some.inj hnew).symm
    subst hst
    rw [runIter_flatIter_length fuel _ (Nat.zero_le n)]
    simp only [FlatIter.remaining, List.map_cons, List.sum_cons]
    omega

/-- Witness for C10: two chunks holding three values, three groups requested,
three items yielded. -/
theorem C10_flatIter_count_spec_witness :
    ∃ st : FlatIter Nat, FlatIter.new [[1, 2], [3]] 3 = some st ∧
      (runIter FlatIter.next 10 st).length
        = min 3 (([[1, 2], [3]].map List.length).sum) := by
  refine ⟨_, rfl, ?_⟩
  exact C10_flatIter_count_spec Nat [[1, 2], [3]] 3 _ rfl 10 (by omega)

theorem rechunk_singleton (arr : PrimArray α) :
    ChunkedPrim.rechunk ⟨[arr]⟩ = arr := by
  obtain ⟨vals, val⟩ := arr
  cases val with
  | none => simp [ChunkedPrim.rechunk]
  | some v => simp [ChunkedPrim.rechunk]

/-- C9: the result of `agg_list` is independent of how the source column is
physically split into chunks: two chunkings with the same rechunked form
produce the same output list column, and any chunking produces the same
output as its single-chunk rechunked form, because the engine rechunks the
source into a single chunk before gathering. -/
theorem C9_rechunk_invariance_spec (α : Type) [Inhabited α]
    (ca1 ca2 : ChunkedPrim α) (g : GroupsType)
    (h : ca1.rechunk = ca2.rechunk) :
    ca1.agg_list g = ca2.agg_list g ∧
    ca1.agg_list g = ChunkedPrim.agg_list ⟨[ca1.rechunk]⟩ g := by
  constructor
  · unfold ChunkedPrim.agg_list
    rw [h]
  · unfold ChunkedPrim.agg_list
    rw [rechunk_singleton]

/-- Witness for C9: a two-chunk and a one-chunk split of the same buffer. -/
theorem C9_rechunk_invariance_spec_witness :
    (ChunkedPrim.rechunk (⟨[⟨[1], none⟩, ⟨[2], none⟩]⟩ : ChunkedPrim Nat)
      = ChunkedPrim.rechunk ⟨[⟨[1, 2], none⟩]⟩) ∧
    ChunkedPrim.agg_list (⟨[⟨[1], none⟩, ⟨[2], none⟩]⟩ : ChunkedPrim Nat)
        (.idx [[0, 1]])
      = ChunkedPrim.agg_list ⟨[⟨[1, 2], none⟩]⟩ (.idx [[0, 1]]) :=
  ⟨by decide,
    (C9_rechunk_invariance_spec Nat ⟨[⟨[1], none⟩, ⟨[2], none⟩]⟩
      ⟨[⟨[1, 2], none⟩]⟩ (.idx [[0, 1]]) (by decide)).1⟩

theorem ListColumn_ext (x y : ListColumn α) (h1 : x.offsets = y.offsets)
    (h2 : x.values = y.values) (h3 : x.childValidity = y.childValidity)
    (h4 : x.listValidity = y.listValidity)
    (h5 : x.fastExplode = y.fastExplode) : x = y := by
  cases x
  cases y
  cases h1
  cases h2
  cases h3
  cases h4
  cases h5
  rfl

theorem GenListColumn_ext (x y : GenListColumn β) (h1 : x.offsets = y.offsets)
    (h2 : x.values = y.values) (h3 : x.listValidity = y.listValidity)
    (h4 : x.fastExplode = y.fastExplode) : x = y := by
  cases x
  cases y
  cases h1
  cases h2
  cases h3
  cases h4
  rfl

theorem equivPartitions_flat (gs : List (List Nat)) (ss : List (Nat × Nat))
    (h : equivPartitions gs ss) :
    idxFlat gs = sliceFlat ss ∧ gs.map List.length = ss.map Prod.snd := by
  induction h with
  | nil => exact ⟨rfl, rfl⟩
  | @cons idx t gs2 ss2 hr hrest ih =>
    constructor
    · simp only [idxFlat, sliceFlat, List.flatMap_cons] at ih ⊢
      rw [hr, ih.1]
    · simp only [List.map_cons]
      rw [ih.2, hr]
      simp

theorem contiguousFrom_flat (ss : List (Nat × Nat)) (acc : Nat)
    (h : contiguousFrom ss acc = true) :
    sliceFlat ss
      = (List.range ((ss.map Prod.snd).sum)).map (fun k => acc + k) := by
  induction ss generalizing acc with
  | nil => simp [sliceFlat]
  | cons t rest ih =>
    obtain ⟨f, l⟩ := t
    simp only [contiguousFrom, Bool.and_eq_true, beq_iff_eq] at h
    obtain ⟨hf, hrest⟩ := h
    simp only [sliceFlat, List.flatMap_cons, List.map_cons, List.sum_cons]
    have hrec := ih (acc + l) hrest
    simp only [sliceFlat] at hrec
    rw [hrec, List.range_add, List.map_append, List.map_map, hf]
    have hfun : ((fun k => acc + k) ∘ fun x => l + x)
        = (fun k => acc + l + k) := by
      funext x
      simp only [Function.comp_apply]
      omega
    rw [hfun]

theorem range_map_getD [Inhabited β] (cb : List β) :
    (List.range cb.length).map (fun i => cb.getD i default) = cb := by
  apply List.ext_getElem
  · simp
  · intro k h1 h2
    simp only [List.getElem_map, List.getElem_range]
    exact List.getD_eq_getElem cb default h2

theorem slice_tiling_map [Inhabited β] (cb : List β) (ss : List (Nat × Nat))
    (hcont : contiguousFrom ss 0 = true)
    (hsum : (ss.map Prod.snd).sum = cb.length) :
    (sliceFlat ss).map (fun i => cb.getD i default) = cb := by
  rw [contiguousFrom_flat ss 0 hcont, hsum, List.map_map]
  have hfun : ((fun i => cb.getD i default) ∘ fun k => 0 + k)
      = (fun i => cb.getD i default) := by
    funext k
    simp
  rw [hfun, range_map_getD]

theorem prepare_slice_components (ss : List (Nat × Nat)) (n : Nat) :
    (prepare_list_agg (.slice ss) n).2.1 = buildOffsets (ss.map Prod.snd) ∧
    (prepare_list_agg (.slice ss) n).2.2 = ss.all (fun t => t.2 != 0) := by
  simp only [prepare_list_agg]
  by_cases hcont :
      (contiguousFrom ss 0 && ((ss.map Prod.snd).sum == n)) = true
  · rw [if_pos hcont]
    exact ⟨rfl, rfl⟩
  · rw [if_neg hcont]
    exact ⟨rfl, rfl⟩

theorem gather_values_slice_pos [Inhabited β] (cb : List β)
    (ss : List (Nat × Nat)) (hcont : contiguousFrom ss 0 = true)
    (hsum : (ss.map Prod.snd).sum = cb.length) :
    (agg_list_by_gather_and_offsets cb (.slice ss)).values = cb := by
  have hnone : (prepare_list_agg (.slice ss) cb.length).1 = none := by
    simp only [prepare_list_agg]
    rw [if_pos (by simp [hcont, hsum])]
  show (match (prepare_list_agg (.slice ss) cb.length).1 with
        | some gather => gather.map (fun i => cb.getD i default)
        | none => cb) = cb
  rw [hnone]

theorem gather_values_slice_neg [Inhabited β] (cb : List β)
    (ss : List (Nat × Nat))
    (hncont : ¬ (contiguousFrom ss 0 && ((ss.map Prod.snd).sum == cb.length))
      = true) :
    (agg_list_by_gather_and_offsets cb (.slice ss)).values
      = (sliceFlat ss).map (fun i => cb.getD i default) := by
  have hsome : (prepare_list_agg (.slice ss) cb.length).1
      = some (sliceFlat ss) := by
    simp only [prepare_list_agg]
    rw [if_neg hncont]
  show (match (prepare_list_agg (.slice ss) cb.length).1 with
        | some gather => gather.map (fun i => cb.getD i default)
        | none => cb) = _
  rw [hsome]

/-- C2: an index-list partition and a slice partition that select the same
rows for the same groups produce identical list columns (same offsets, same
flattened values, same validity, same fast-explode flag), both on the
primitive fast path and on the shared gather-and-offsets path. -/
theorem C2_idx_slice_equivalence_spec (α : Type) [Inhabited α]
    (ca : ChunkedPrim α) (gs : List (List Nat)) (ss : List (Nat × Nat))
    (heq : equivPartitions gs ss)
    (hb : GroupsType.inBounds (.idx gs) ca.rechunk.values.length)
    (β : Type) [Inhabited β] (cb : List β) :
    ca.agg_list (.idx gs) = ca.agg_list (.slice ss) ∧
    agg_list_by_gather_and_offsets cb (.idx gs)
      = agg_list_by_gather_and_offsets cb (.slice ss) := by
  have hfe := equivPartitions_flat gs ss heq
  have hgi : (GroupsType.idx gs).gatherIndices
      = (GroupsType.slice ss).gatherIndices := hfe.1
  have hlens : (GroupsType.idx gs).declaredLens
      = (GroupsType.slice ss).declaredLens := hfe.2
  constructor
  · have hb2 : GroupsType.inBounds (.slice ss) ca.rechunk.values.length := by
      intro i hi
      exact hb i (by rw [GroupsType.gatherIndices, hfe.1]; exact hi)
    have hvals : (ca.agg_list (.idx gs)).values
        = (ca.agg_list (.slice ss)).values := by
      show (aggListIdx ca.rechunk gs).values
        = (aggListSlice ca.rechunk ss).values
      rw [aggListIdx_values, aggListSlice_values ca.rechunk ss hb2, hfe.1]
    refine ListColumn_ext _ _ ?_ hvals ?_ rfl ?_
    · show buildOffsets (gs.map List.length) = buildOffsets (ss.map Prod.snd)
      rw [hfe.2]
    · rw [agg_list_childValidity_eq, agg_list_childValidity_eq, hgi, hvals]
    · rw [agg_list_fastExplode_eq, agg_list_fastExplode_eq, hlens]
  · have hcfe : (gs.all fun idx => idx.length != 0)
        = (ss.all fun t => t.2 != 0) := by
      have h1 : (gs.map List.length).all (fun l => l != 0)
          = (ss.map Prod.snd).all (fun l => l != 0) := by
        rw [hfe.2]
      rw [all_map_general, all_map_general] at h1
      exact h1
    refine GenListColumn_ext _ _ ?_ ?_ rfl ?_
    · show buildOffsets (gs.map List.length)
        = (prepare_list_agg (.slice ss) cb.length).2.1
      rw [(prepare_slice_components ss cb.length).1, hfe.2]
    · by_cases hcont :
          (contiguousFrom ss 0 && ((ss.map Prod.snd).sum == cb.length)) = true
      · simp only [Bool.and_eq_true, beq_iff_eq] at hcont
        rw [gather_values_slice_pos cb ss hcont.1 hcont.2]
        show (idxFlat gs).map (fun i => cb.getD i default) = cb
        rw [hfe.1]
        exact slice_tiling_map cb ss hcont.1 hcont.2
      · rw [gather_values_slice_neg cb ss hcont]
        show (idxFlat gs).map (fun i => cb.getD i default) = _
        rw [hfe.1]
    · show (gs.all fun idx => idx.length != 0)
        = (prepare_list_agg (.slice ss) cb.length).2.2
      rw [(prepare_slice_components ss cb.length).2, hcfe]

/-- Witness for C2: `[[0,1],[2]]` and `[(0,2),(2,1)]` select the same rows;
an offset, non-tiling pair `[[1,2]]` and `[(1,2)]` also agrees. -/
theorem C2_idx_slice_equivalence_spec_witness :
    equivPartitions [[0, 1], [2]] [(0, 2), (2, 1)] ∧
    ChunkedPrim.agg_list (⟨[⟨[10, 20, 30], some [true, false, true]⟩]⟩ :
        ChunkedPrim Nat) (.idx [[0, 1], [2]])
      = ChunkedPrim.agg_list ⟨[⟨[10, 20, 30], some [true, false, true]⟩]⟩
          (.slice [(0, 2), (2, 1)]) := by
  have heq : equivPartitions [[0, 1], [2]] [(0, 2), (2, 1)] := by
    refine List.Forall₂.cons (by decide) (List.Forall₂.cons (by decide) ?_)
    exact List.Forall₂.nil
  exact ⟨heq,
    (C2_idx_slice_equivalence_spec Nat
      ⟨[⟨[10, 20, 30], some [true, false, true]⟩]⟩ [[0, 1], [2]]
      [(0, 2), (2, 1)] heq (by decide) Nat [5, 6, 7]).1⟩

/-- C8: the struct path applies one single gather uniformly across all child
field columns — the combined row map `structRowMap` derived once from the
partition — so for every output position the values of every field come from
the same source row; field names and element types are preserved, and the
result type is explicitly reassigned to list-of-struct with the original
field names and types. -/
theorem C8_struct_alignment_spec (β : Type) [Inhabited β] (s : StructChunked β)
    (g : GroupsType) (_hwf : s.wfb = true) (_hb : g.inBounds s.len) :
    (s.agg_list g).resultDtype
      = .list (.struct (s.fields.map (fun f => (f.1, f.2.1)))) ∧
    (s.agg_list g).child.fields.map (fun f => (f.1, f.2.1))
      = s.fields.map (fun f => (f.1, f.2.1)) ∧
    (∀ j, j < s.fields.length → ∀ p,
      p < ((s.agg_list g).child.fields.getD j ("", .int, [])).2.2.length →
      ((s.agg_list g).child.fields.getD j ("", .int, [])).2.2.getD p default
        = (s.fields.getD j ("", .int, [])).2.2.getD
            (structRowMap g s.len p) default) := by
  have hchild : (s.agg_list g).child
      = (match (prepare_list_agg g s.len).1 with
         | some gather => s.take_unchecked gather
         | none => s) := rfl
  cases hga : (prepare_list_agg g s.len).1 with
  | some gather =>
    rw [hga] at hchild
    have hrow : structRowMap g s.len = fun p => gather.getD p 0 := by
      unfold structRowMap
      rw [hga]
    refine ⟨rfl, ?_, ?_⟩
    · rw [hchild]
      simp only [StructChunked.take_unchecked, List.map_map]
      rfl
    · intro j hj p hp
      rw [hchild] at hp ⊢
      rw [hrow]
      simp only [StructChunked.take_unchecked] at hp ⊢
      have hj2 : j < (s.fields.map (fun f =>
          (f.1, f.2.1, gather.map (fun i => f.2.2.getD i default)))).length := by
        simpa using hj
      rw [List.getD_eq_getElem _ _ hj2, List.getElem_map] at hp ⊢
      simp only [List.length_map] at hp
      rw [List.getD_eq_getElem _ _ (by simpa using hp), List.getElem_map,
        List.getD_eq_getElem s.fields _ hj,
        List.getD_eq_getElem gather 0 (by simpa using hp)]
  | none =>
    rw [hga] at hchild
    have hrow : structRowMap g s.len = fun p => p := by
      unfold structRowMap
      rw [hga]
    exact ⟨rfl, by rw [hchild], fun j hj p hp => by rw [hchild, hrow]⟩

/-- Witness for C8 over a two-field struct and two groups. -/
theorem C8_struct_alignment_spec_witness :
    ((⟨2, [("a", .int, [10, 20]), ("b", .int, [30, 40])]⟩ :
      StructChunked Nat).wfb = true) ∧
    (GroupsType.inBounds (.idx [[0, 1], [1]]) 2) ∧
    (StructChunked.agg_list
        (⟨2, [("a", .int, [10, 20]), ("b", .int, [30, 40])]⟩ :
          StructChunked Nat) (.idx [[0, 1], [1]])).resultDtype
      = .list (.struct [("a", .int), ("b", .int)]) := by
  refine ⟨by decide, by decide, ?_⟩
  exact (C8_struct_alignment_spec Nat
    ⟨2, [("a", .int, [10, 20]), ("b", .int, [30, 40])]⟩
    (.idx [[0, 1], [1]]) (by decide) (by decide)).1

end Polars
